import Mathlib

/-!
Verification of the cut composition and truncation engine of the lhotse
repository (src/lhotse/cut.py), against its natural-language specification.

Times and SNR values are modelled with exact rationals (`ℚ`); Python floats
are real-valued in all the claims under study, which concern exact
arithmetic identities of the formulas in the code.  Python `assert`
failures and runtime errors (IndexError on `tracks[0]`, ValueError on
`max(())`, AttributeError) are modelled by `Option`: `none` means the
operation raises.  Each call to `str(uuid4())` is modelled by reading a
fresh identifier from an oracle: either a single `freshId : String`
argument when the operation draws one uuid, or a stream `gen : Nat → String`
when it may draw several (the operation's own id is `gen 0`, the i-th
sorted track's truncation draws from the substream `fun n => gen (Nat.pair (i+1) n)`).
-/

namespace Lhotse

abbrev Seconds := ℚ
abbrev Decibels := ℚ

/-- Modelled from the spec: `lhotse.utils.TimeSpan` (utils.py is not part of
the provided sources).  `{start: seconds, end: seconds}`; the `end` field is
called `stop` here because `end` is a reserved word in Lean. -/
structure TimeSpan where
  start : Seconds
  stop : Seconds
deriving Repr, DecidableEq

/-- Modelled from the spec: `lhotse.utils.overlaps` —
`overlaps(a, b)` is true iff `a.start < b.end and b.start < a.end`. -/
def overlaps (a b : TimeSpan) : Bool :=
  decide (a.start < b.stop) && decide (b.start < a.stop)

/-- Modelled from the spec: `lhotse.utils.overspans` —
`overspans(a, b)` is true iff `a.start <= b.start and b.end <= a.end`. -/
def overspans (a b : TimeSpan) : Bool :=
  decide (a.start ≤ b.start) && decide (b.stop ≤ a.stop)

/-- The fields of `lhotse.features.Features` consumed by the cut engine
(`frame_shift`, `num_features`, plus identifying metadata).  The feature
matrix itself is external and not modelled. -/
structure Features where
  recording_id : String
  channel_id : Int
  start : Seconds
  duration : Seconds
  frame_shift : Seconds
  num_features : Nat
deriving Repr, DecidableEq

/-- Modelled from the spec: `lhotse.supervision.SupervisionSegment`
(supervision.py is not part of the provided sources): `{start, duration}`
seconds plus opaque metadata (here just an id), with an implicit span
`[start, start+duration)` and a pure `with_offset`. -/
structure SupervisionSegment where
  id : String
  start : Seconds
  duration : Seconds
deriving Repr, DecidableEq

/-- Modelled from the spec: `SupervisionSegment.with_offset(delta)` returns a
shifted copy. -/
def SupervisionSegment.with_offset (s : SupervisionSegment) (delta : Seconds) :
    SupervisionSegment :=
  { s with start := s.start + delta }

/-- The implicit time span `[start, start+duration)` of a supervision segment,
as consumed (duck-typed) by `overlaps`/`overspans` in `Cut.truncate`. -/
def SupervisionSegment.toTimeSpan (s : SupervisionSegment) : TimeSpan :=
  ⟨s.start, s.start + s.duration⟩

/-- `lhotse.cut.Cut` (the simple cut): a single segment pointing into a
feature matrix, with supervisions. -/
structure Cut where
  id : String
  start : Seconds
  duration : Seconds
  features : Features
  supervisions : List SupervisionSegment
deriving Repr, DecidableEq

/-- `Cut.end` property: `start + duration`. -/
def Cut.stop (c : Cut) : Seconds := c.start + c.duration

/-- `Cut.num_features` property: forwarded from the features. -/
def Cut.num_features (c : Cut) : Nat := c.features.num_features

/-- `Cut.num_frames` property: `round(duration / frame_shift)`.  (Python
`round` is banker's rounding; Mathlib `round` rounds half away from zero
upward — no claim depends on the behaviour at exact halves.) -/
def Cut.num_frames (c : Cut) : Int := round (c.duration / c.features.frame_shift)

/-- `Cut.truncate` from src/lhotse/cut.py, lines 103-141, translated verbatim:
`new_start = self.start + offset`;
`until = offset + (duration if duration is not None else self.duration)`;
`new_duration = self.duration - new_start if duration is None else until - offset`;
two asserts, then supervision filtering by `overlaps`/`overspans`.
`freshId` models the `str(uuid4())` drawn when `preserve_id` is false;
`none` models an `AssertionError`. -/
def Cut.truncate (self : Cut) (freshId : String) (offset : Seconds)
    (duration : Option Seconds) (keep_excessive_supervisions : Bool)
    (preserve_id : Bool) : Option Cut :=
  let new_start := self.start + offset
  let until_ := offset + (match duration with
    | some d => d
    | none => self.duration)
  let new_duration := match duration with
    | none => self.duration - new_start
    | some _ => until_ - offset
  if ¬ (new_duration > 0) then none
  else if ¬ (new_start + new_duration ≤ self.start + self.duration + 1 / 100000) then none
  else
    let new_time_span : TimeSpan := ⟨new_start, new_start + new_duration⟩
    let criterion := if keep_excessive_supervisions then overlaps else overspans
    some {
      id := if preserve_id then self.id else freshId
      start := new_start
      duration := new_duration
      features := self.features
      supervisions := self.supervisions.filter
        (fun segment => criterion new_time_span segment.toTimeSpan)
    }

/-!
The mixed-cut data model.  In Python `MixTrack.cut` is annotated `Cut` but
the language is dynamically typed, and the spec describes a track's cut as
"a SimpleCut or a nested MixedCut's tracks"; to make the flattening
behaviour of `overlay` a provable fact (rather than a typing artifact) a
track's cut is a sum `AnyCut` of the two variants, mirroring the
`AnyCut = Union[Cut, MixedCut]` typedef of the source.
-/

mutual
inductive AnyCut where
  | simple (c : Cut)
  | mixed (m : MixedCut)

inductive MixedCut where
  | mk (id : String) (tracks : List MixTrack)

inductive MixTrack where
  | mk (cut : AnyCut) (offset : Seconds) (snr : Option Decibels)
end

def MixedCut.id : MixedCut → String
  | .mk i _ => i

def MixedCut.tracks : MixedCut → List MixTrack
  | .mk _ t => t

def MixTrack.cut : MixTrack → AnyCut
  | .mk c _ _ => c

def MixTrack.offset : MixTrack → Seconds
  | .mk _ o _ => o

def MixTrack.snr : MixTrack → Option Decibels
  | .mk _ _ s => s

/-- Does this cut carry the `Cut` (simple) variant?  (Python: `isinstance(x, Cut)`.) -/
def AnyCut.isSimple : AnyCut → Bool
  | .simple _ => true
  | .mixed _ => false

/-- The id of either cut variant. -/
def AnyCut.idOf : AnyCut → String
  | .simple c => c.id
  | .mixed m => m.id

/-- Sequencing a list of possibly-failing computations, mirroring the fact
that a Python comprehension/loop raises as soon as one element raises. -/
def seqOption {α : Type} : List (Option α) → Option (List α)
  | [] => some []
  | o :: os => o.bind (fun a => (seqOption os).map (fun rest => a :: rest))

/-- `track.cut.duration`, fuel-bounded: a simple cut's duration is a stored
field; a mixed cut's duration is
`max(track.offset + track.cut.duration for track in tracks)`
(`MixedCut.duration` property, src/lhotse/cut.py lines 224-227).
`none` models Python raising (ValueError of `max` on an empty track list, or
fuel exhaustion on a nesting deeper than `fuel`, which cannot happen for the
flat lists the code constructs). -/
def durAny : Nat → AnyCut → Option ℚ
  | _, .simple c => some c.duration
  | 0, .mixed _ => none
  | fuel+1, .mixed m =>
    (seqOption (m.tracks.map (fun t => (durAny fuel t.cut).map (fun d => t.offset + d)))).bind
      (fun track_durations => match track_durations with
        | [] => none
        | e :: es => some (es.foldl max e))

/-- `MixedCut.duration` property. -/
def MixedCut.durationF (fuel : Nat) (m : MixedCut) : Option ℚ :=
  durAny (fuel + 1) (.mixed m)

/-- `num_features`, fuel-bounded: a simple cut forwards
`features.num_features`; a mixed cut forwards `tracks[0].cut.num_features`
(src/lhotse/cut.py lines 233-235); `none` models the IndexError on an empty
track list. -/
def numFeatAny : Nat → AnyCut → Option Nat
  | _, .simple c => some c.num_features
  | 0, .mixed _ => none
  | fuel+1, .mixed m => match m.tracks with
    | [] => none
    | t :: _ => numFeatAny fuel t.cut

/-- `MixedCut.num_features` property. -/
def MixedCut.num_featuresF (fuel : Nat) (m : MixedCut) : Option Nat :=
  numFeatAny (fuel + 1) (.mixed m)

/-- `cut.features.frame_shift` as accessed by `MixedCut.num_frames` on
`tracks[0].cut`; a MixedCut has no `features` attribute, so that access on a
mixed variant is an AttributeError (`none`). -/
def frameShiftAny : AnyCut → Option ℚ
  | .simple c => some c.features.frame_shift
  | .mixed _ => none

/-- `MixedCut.num_frames` property:
`round(self.duration / self.tracks[0].cut.features.frame_shift)`
(src/lhotse/cut.py lines 229-231). -/
def MixedCut.num_framesF (fuel : Nat) (m : MixedCut) : Option Int := do
  let d ← MixedCut.durationF fuel m
  let t ← m.tracks.head?
  let fs ← frameShiftAny t.cut
  pure (round (d / fs))

/-- `Cut.overlay` (src/lhotse/cut.py lines 143-161):
asserts equal `num_features`, then `offset_other_by <= self.duration`;
`new_tracks` is a singleton track for a simple `other` and `other.tracks`
for a mixed `other` (the `isinstance(other, Cut)` test); the result prepends
`MixTrack(cut=self)` (offset 0, snr None). -/
def Cut.overlay (fuel : Nat) (self : Cut) (other : AnyCut)
    (offset_other_by : Seconds) (snr : Option Decibels) (freshId : String) :
    Option MixedCut :=
  (numFeatAny fuel other).bind (fun onf =>
    if self.num_features ≠ onf then none
    else if ¬ (offset_other_by ≤ self.duration) then none
    else
      let new_tracks := match other with
        | .simple oc => [MixTrack.mk (.simple oc) offset_other_by snr]
        | .mixed om => om.tracks
      some (MixedCut.mk freshId (MixTrack.mk (.simple self) 0 none :: new_tracks)))

/-- `Cut.append` (src/lhotse/cut.py lines 163-171): sugar for
`overlay(other, offset_other_by=self.duration, snr=snr)`. -/
def Cut.append (fuel : Nat) (self : Cut) (other : AnyCut) (snr : Option Decibels)
    (freshId : String) : Option MixedCut :=
  Cut.overlay fuel self other self.duration snr freshId

/-- `MixedCut.overlay` (src/lhotse/cut.py lines 237-260): same asserts as
`Cut.overlay` (with the mixed cut's derived `num_features` and `duration`,
evaluated in the source order), and the `new_tracks` are appended to
`self.tracks`. -/
def MixedCut.overlay (fuel : Nat) (self : MixedCut) (other : AnyCut)
    (offset_other_by : Seconds) (snr : Option Decibels) (freshId : String) :
    Option MixedCut :=
  (MixedCut.num_featuresF fuel self).bind (fun snf =>
  (numFeatAny fuel other).bind (fun onf =>
    if snf ≠ onf then none
    else (MixedCut.durationF fuel self).bind (fun sdur =>
      if ¬ (offset_other_by ≤ sdur) then none
      else
        let new_tracks := match other with
          | .simple oc => [MixTrack.mk (.simple oc) offset_other_by snr]
          | .mixed om => om.tracks
        some (MixedCut.mk freshId (self.tracks ++ new_tracks)))))

/-- `MixedCut.append` (src/lhotse/cut.py lines 262-270): overlay at
`offset_other_by=self.duration` (the derived duration is evaluated first). -/
def MixedCut.append (fuel : Nat) (self : MixedCut) (other : AnyCut)
    (snr : Option Decibels) (freshId : String) : Option MixedCut :=
  (MixedCut.durationF fuel self).bind (fun sdur =>
    MixedCut.overlay fuel self other sdur snr freshId)

/-- Dynamic dispatch of `overlay` on the receiver's variant. -/
def AnyCut.overlay (fuel : Nat) : AnyCut → AnyCut → Seconds → Option Decibels →
    String → Option MixedCut
  | .simple c, other, off, snr, freshId => Cut.overlay fuel c other off snr freshId
  | .mixed m, other, off, snr, freshId => MixedCut.overlay fuel m other off snr freshId

/-- The formula assigning `cut_duration_decrease` inside `MixedCut.truncate`
(src/lhotse/cut.py lines 317-322), verbatim:
initialized to 0; when `track_end > new_mix_end`, it is
`track_end - new_mix_end` if `duration is not None` else
`track_end - old_duration`. -/
def cut_duration_decrease (duration : Option Seconds)
    (track_end new_mix_end old_duration : ℚ) : ℚ :=
  if track_end > new_mix_end then
    match duration with
    | some _ => track_end - new_mix_end
    | none => track_end - old_duration
  else 0

/-- `new_mix_end = old_duration - offset if duration is None else offset + duration`
(src/lhotse/cut.py line 298). -/
def new_mix_end_def (duration : Option Seconds) (old_duration offset : ℚ) : ℚ :=
  match duration with
  | none => old_duration - offset
  | some d => offset + d

/-- Stable insertion used to model Python's stable `sorted(tracks, key=offset)`. -/
def insertTrack (t : MixTrack) : List MixTrack → List MixTrack
  | [] => [t]
  | u :: us => if u.offset < t.offset then u :: insertTrack t us else t :: u :: us

/-- `sorted(self.tracks, key=lambda t: t.offset)`: a stable sort by offset. -/
def sortTracks (l : List MixTrack) : List MixTrack :=
  l.foldr insertTrack []

/-- Indexed enumeration `[(n, l[0]), (n+1, l[1]), ...]`, used to give each
track's inner truncation its own uuid substream. -/
def enumFromN {α : Type} : Nat → List α → List (Nat × α)
  | _, [] => []
  | n, a :: l => (n, a) :: enumFromN (n + 1) l

/-- `truncate` with dynamic dispatch on the cut variant.  The simple branch
is `Cut.truncate`; the mixed branch is `MixedCut.truncate`
(src/lhotse/cut.py lines 272-342), translated clause by clause:
`old_duration = self.duration`;
`new_mix_end = old_duration - offset if duration is None else offset + duration`;
then for each track of `sorted(self.tracks, key=offset)`:
`cut_offset = max(offset - track.offset, 0)`,
`track_offset = max(track.offset - offset, 0)`,
`track_end = track.offset + track.cut.duration`,
skip when `track_end < offset`, compute `cut_duration_decrease`,
`new_duration = track.cut.duration - cut_offset - cut_duration_decrease`,
skip when `new_duration <= 0`, otherwise keep
`MixTrack(track.cut.truncate(cut_offset, new_duration, ...), track_offset, track.snr)`;
the result is `MixedCut(uuid4(), kept_tracks)` regardless of `preserve_id`.
A per-track `some none` is a skipped (`continue`) track, `none` a raised
error that aborts the whole call.  The source's local variables
`new_mix_end` and `cut_duration_decrease` are the named helper definitions
above; the locals `cut_offset = max(offset - track.offset, 0)`,
`track_offset = max(track.offset - offset, 0)`,
`track_end = track.offset + track.cut.duration` and
`new_duration = track.cut.duration - cut_offset - cut_duration_decrease`
are inlined at each of their use sites. -/
def truncAny : Nat → AnyCut → (Nat → String) → Seconds → Option Seconds →
    Bool → Bool → Option AnyCut
  | _, .simple c, gen, offset, duration, keep, pid =>
    (Cut.truncate c (gen 0) offset duration keep pid).map AnyCut.simple
  | 0, .mixed _, _, _, _, _, _ => none
  | fuel+1, .mixed m, gen, offset, duration, keep, pid =>
    (durAny (fuel + 1) (.mixed m)).bind (fun old_duration =>
      (seqOption ((enumFromN 0 (sortTracks m.tracks)).map (fun p =>
        (durAny fuel p.2.cut).bind (fun track_cut_duration =>
          if p.2.offset + track_cut_duration < offset then some none
          else if track_cut_duration - max (offset - p.2.offset) 0 -
              cut_duration_decrease duration (p.2.offset + track_cut_duration)
                (new_mix_end_def duration old_duration offset) old_duration ≤ 0 then
            some none
          else
            (truncAny fuel p.2.cut (fun n => gen (Nat.pair (p.1 + 1) n))
                (max (offset - p.2.offset) 0)
                (some (track_cut_duration - max (offset - p.2.offset) 0 -
                  cut_duration_decrease duration (p.2.offset + track_cut_duration)
                    (new_mix_end_def duration old_duration offset) old_duration))
                keep pid).map
              (fun newCut =>
                some (MixTrack.mk newCut (max (p.2.offset - offset) 0) p.2.snr)))))).bind
        (fun processed =>
          some (.mixed (MixedCut.mk (gen 0) (processed.filterMap id)))))

/-- `MixedCut.truncate`, as dispatched by `truncAny`. -/
def MixedCut.truncateF (fuel : Nat) (m : MixedCut) (gen : Nat → String)
    (offset : Seconds) (duration : Option Seconds) (keep pid : Bool) :
    Option AnyCut :=
  truncAny (fuel + 1) (.mixed m) gen offset duration keep pid

/-- `lhotse.cut.mix` helper (src/lhotse/cut.py lines 553-560): functional
overlay. -/
def mix (fuel : Nat) (left_cut right_cut : AnyCut) (offset_right_by : Seconds)
    (snr : Option Decibels) (freshId : String) : Option MixedCut :=
  AnyCut.overlay fuel left_cut right_cut offset_right_by snr freshId

/-- The fold inside `mix_cuts`: start from the accumulated cut and overlay
the remaining cuts one by one with offset 0 and no SNR, drawing one fresh id
per step. -/
def mixCutsGo (fuel : Nat) (gen : Nat → String) : Nat → AnyCut → List AnyCut →
    Option AnyCut
  | _, acc, [] => some acc
  | k, acc, c :: cs =>
    (mix fuel acc c 0 none (gen k)).bind (fun m =>
      mixCutsGo fuel gen (k + 1) (.mixed m) cs)

/-- `mix_cuts(cuts) = reduce(mix, cuts)` (src/lhotse/cut.py lines 572-576);
`none` on an empty input (TypeError of `reduce`). -/
def mix_cuts (fuel : Nat) (gen : Nat → String) (cuts : List AnyCut) :
    Option AnyCut :=
  match cuts with
  | [] => none
  | c :: cs => mixCutsGo fuel gen 0 c cs

/-!  Helper notions and lemmas used by the claim theorems. -/

/-- The duration of a simple cut, 0 (junk, never used) on a mixed cut. -/
def AnyCut.simpleDuration : AnyCut → ℚ
  | .simple c => c.duration
  | .mixed _ => 0

/-- Where a track ends, relative to the beginning of the mix, for flat tracks. -/
def MixTrack.trackEnd (t : MixTrack) : ℚ := t.offset + t.cut.simpleDuration

/-- Well-formedness of one track as maintained by the code and stated by the
spec's data model: it holds a simple cut with positive duration, at a
non-negative offset. -/
def MixTrack.WF (t : MixTrack) : Prop :=
  0 ≤ t.offset ∧ ∃ c, t.cut = AnyCut.simple c ∧ 0 < c.duration

/-- The value `Cut.truncate` returns when its two asserts pass. -/
def truncCutVal (c : Cut) (gid : String) (new_start new_duration : ℚ)
    (keep pid : Bool) : Cut :=
  { id := if pid then c.id else gid
    start := new_start
    duration := new_duration
    features := c.features
    supervisions := c.supervisions.filter
      (fun segment => (if keep then overlaps else overspans)
        ⟨new_start, new_start + new_duration⟩ segment.toTimeSpan) }

/-- What `MixedCut.truncate` keeps of one (indexed) track when called with
`offset=0` and an explicit duration `d`, for well-formed flat tracks:
the track survives iff its clipped span `min(track_end, d) - offset` is
positive, its cut is truncated to that duration, and offset and snr are
kept. -/
def keptZero (gen : Nat → String) (d : ℚ) (keep pid : Bool)
    (p : Nat × MixTrack) : Option MixTrack :=
  match p.2.cut with
  | .simple c =>
    let new_duration := min (p.2.offset + c.duration) d - p.2.offset
    if new_duration ≤ 0 then none
    else some (MixTrack.mk
      (.simple (truncCutVal c (gen (Nat.pair (p.1 + 1) 0)) c.start new_duration keep pid))
      p.2.offset p.2.snr)
  | .mixed _ => none

/-! Concrete fixtures used by counterexamples and witnesses. -/

/-- A feature reference with `frame_shift` 0.01 and one feature dimension. -/
def featA : Features := ⟨"rec-a", 0, 0, 100, 1 / 100, 1⟩

/-- A uuid oracle. -/
def genU : Nat → String := fun n => "uuid-" ++ toString n

/-- A uuid oracle returning a constant fresh id. -/
def gidFresh : String := "fresh-id"

/-- A constant uuid oracle. -/
def genG : Nat → String := fun _ => gidFresh

/-- A fixed fresh-id string for single-uuid operations. -/
def fidF : String := "fid-0"

/-- A simple cut of duration 2 starting at 0. -/
def cutP : Cut := ⟨"cut-p", 0, 2, featA, []⟩

/-- A simple cut of duration 1 starting at 0. -/
def cutQ : Cut := ⟨"cut-q", 0, 1, featA, []⟩

/-- A simple cut of duration 5 starting at 0. -/
def cutR : Cut := ⟨"cut-r", 0, 5, featA, []⟩

/-- A simple cut of duration 5 starting at 2 (a nonzero start within the
recording). -/
def cutS2 : Cut := ⟨"cut-s", 2, 5, featA, []⟩

/-- A simple cut of duration 10 starting at 0. -/
def cutT10 : Cut := ⟨"cut-t10", 0, 10, featA, []⟩

/-- A simple cut of duration 6 starting at 0. -/
def cutT6 : Cut := ⟨"cut-t6", 0, 6, featA, []⟩

/-- Mix for C2: a 10 s track at offset 0 and a 6 s track at offset 2
(duration 10). -/
def mixC2 : MixedCut :=
  .mk "mix-c2" [.mk (.simple cutT10) 0 none, .mk (.simple cutT6) 2 none]

/-- Mix for C3: a 2 s track at offset 0 and a 1 s track at offset 5
(duration 6, with a gap between 2 and 5). -/
def mixC3 : MixedCut :=
  .mk "mix-c3" [.mk (.simple cutP) 0 none, .mk (.simple cutQ) 5 none]

/-- Mix for C4: a single 2 s track. -/
def mixC4 : MixedCut := .mk "mix-c4" [.mk (.simple cutP) 0 none]

/-- Mix for C5: a 2 s track at offset 0 and a 5 s track at offset 5
(duration 10). -/
def mixC5 : MixedCut :=
  .mk "mix-c5" [.mk (.simple cutP) 0 none, .mk (.simple cutR) 5 none]

/-- Mix for C6: one 5 s track at offset 0 (duration 5). -/
def mixB6 : MixedCut := .mk "mix-b6" [.mk (.simple cutR) 0 none]

/-- Mix for C10: a single 2 s track at offset 0. -/
def mixC10 : MixedCut := .mk "mix-c10" [.mk (.simple cutP) 0 none]

/-!  The development's lemmas and the claim theorems. -/

@[simp] theorem MixedCut.id_mk (i : String) (t : List MixTrack) :
    (MixedCut.mk i t).id = i := rfl

@[simp] theorem MixedCut.tracks_mk (i : String) (t : List MixTrack) :
    (MixedCut.mk i t).tracks = t := rfl

@[simp] theorem MixTrack.cut_mk (c : AnyCut) (o : Seconds) (s : Option Decibels) :
    (MixTrack.mk c o s).cut = c := rfl

@[simp] theorem MixTrack.offset_mk (c : AnyCut) (o : Seconds) (s : Option Decibels) :
    (MixTrack.mk c o s).offset = o := rfl

@[simp] theorem MixTrack.snr_mk (c : AnyCut) (o : Seconds) (s : Option Decibels) :
    (MixTrack.mk c o s).snr = s := rfl

@[simp] theorem truncCutVal_duration (c : Cut) (gid : String) (ns nd : ℚ)
    (keep pid : Bool) : (truncCutVal c gid ns nd keep pid).duration = nd := rfl

theorem Cut.truncate_pos_some (c : Cut) (gid : String) (offset nd : ℚ)
    (keep pid : Bool) (h1 : 0 < nd)
    (h2 : c.start + offset + nd ≤ c.start + c.duration + 1 / 100000) :
    Cut.truncate c gid offset (some nd) keep pid
      = some (truncCutVal c gid (c.start + offset) nd keep pid) := by
  unfold Cut.truncate truncCutVal
  have hx : offset + nd - offset = nd := by ring
  rw [if_neg, if_neg]
  · simp [hx]
  · simp only [hx, not_not]
    linarith
  · simp only [hx, not_not, gt_iff_lt]
    linarith

theorem seqOption_map_some {α β : Type} (l : List α) (f : α → Option β)
    (g : α → β) (h : ∀ x ∈ l, f x = some (g x)) :
    seqOption (l.map f) = some (l.map g) := by
  induction l with
  | nil => rfl
  | cons a l ih =>
    have ha := h a (by simp)
    have ih' := ih (fun x hx => h x (by simp [hx]))
    simp [seqOption, ha, ih']

theorem seqOption_eq_some_mem {α : Type} {l : List (Option α)} {xs : List α}
    (h : seqOption l = some xs) : ∀ o ∈ l, ∃ x, o = some x := by
  induction l generalizing xs with
  | nil => simp
  | cons o os ih =>
    simp only [seqOption, Option.bind_eq_some, Option.map_eq_some'] at h
    obtain ⟨a, ha, rest, hrest, _⟩ := h
    intro o' ho'
    rcases List.mem_cons.mp ho' with h' | h'
    · exact ⟨a, h' ▸ ha⟩
    · exact ih hrest o' h'

theorem seqOption_append {α : Type} (l1 l2 : List (Option α)) :
    seqOption (l1 ++ l2) = (seqOption l1).bind
      (fun x1 => (seqOption l2).map (fun x2 => x1 ++ x2)) := by
  induction l1 with
  | nil =>
    simp only [List.nil_append, seqOption]
    cases seqOption l2 <;> simp
  | cons o os ih =>
    rw [List.cons_append]
    show (o.bind fun a => (seqOption (os ++ l2)).map (fun rest => a :: rest)) = _
    rw [ih]
    cases o with
    | none => simp [seqOption]
    | some a =>
      cases h1 : seqOption os with
      | none => simp [seqOption, h1]
      | some xs =>
        cases h2 : seqOption l2 with
        | none => simp [seqOption, h1, h2]
        | some ys => simp [seqOption, h1, h2]

theorem le_foldl_max (a : ℚ) (l : List ℚ) : a ≤ l.foldl max a := by
  induction l generalizing a with
  | nil => simp
  | cons x xs ih => exact le_trans (le_max_left a x) (ih (max a x))

theorem mem_le_foldl_max {x : ℚ} {l : List ℚ} (hx : x ∈ l) (a : ℚ) :
    x ≤ l.foldl max a := by
  induction l generalizing a with
  | nil => cases hx
  | cons y ys ih =>
    rcases List.mem_cons.mp hx with rfl | h
    · exact le_trans (le_max_right a x) (le_foldl_max _ _)
    · exact ih h (max a y)

theorem foldl_max_le {d : ℚ} (a : ℚ) (l : List ℚ) (ha : a ≤ d)
    (hl : ∀ x ∈ l, x ≤ d) : l.foldl max a ≤ d := by
  induction l generalizing a with
  | nil => exact ha
  | cons x xs ih =>
    exact ih (max a x) (max_le ha (hl x (by simp)))
      (fun y hy => hl y (by simp [hy]))

theorem foldl_max_attained (a : ℚ) (l : List ℚ) :
    l.foldl max a = a ∨ l.foldl max a ∈ l := by
  induction l generalizing a with
  | nil => exact Or.inl rfl
  | cons x xs ih =>
    rw [List.foldl_cons]
    rcases ih (max a x) with h | h
    · rw [h]
      rcases max_cases a x with ⟨hm, _⟩ | ⟨hm, _⟩
      · exact Or.inl hm
      · exact Or.inr (by rw [hm]; exact List.mem_cons_self x xs)
    · exact Or.inr (List.mem_cons_of_mem x h)

theorem mem_insertTrack {u t : MixTrack} {l : List MixTrack} :
    u ∈ insertTrack t l ↔ u = t ∨ u ∈ l := by
  induction l with
  | nil => simp [insertTrack]
  | cons v vs ih =>
    by_cases h : v.offset < t.offset
    · simp only [insertTrack, if_pos h, List.mem_cons, ih]
      tauto
    · simp only [insertTrack, if_neg h, List.mem_cons]

theorem mem_sortTracks {u : MixTrack} {l : List MixTrack} :
    u ∈ sortTracks l ↔ u ∈ l := by
  induction l with
  | nil => simp [sortTracks]
  | cons t ts ih =>
    show u ∈ insertTrack t (sortTracks ts) ↔ _
    rw [mem_insertTrack, ih, List.mem_cons]

theorem sortTracks_of_sorted {l : List MixTrack}
    (h : List.Pairwise (fun a b => a.offset ≤ b.offset) l) :
    sortTracks l = l := by
  induction l with
  | nil => rfl
  | cons t ts ih =>
    have hts := ih (List.Pairwise.sublist (List.sublist_cons_self t ts) h)
    simp only [sortTracks, List.foldr_cons] at *
    rw [hts]
    cases ts with
    | nil => rfl
    | cons u us =>
      have hle : t.offset ≤ u.offset := (List.pairwise_cons.mp h).1 u (by simp)
      simp [insertTrack, not_lt.mpr hle]

theorem mem_enumFromN {α : Type} {p : Nat × α} :
    ∀ {n : Nat} {l : List α}, p ∈ enumFromN n l → p.2 ∈ l := by
  intro n l
  induction l generalizing n with
  | nil => simp [enumFromN]
  | cons a l ih =>
    intro h
    rcases List.mem_cons.mp h with h' | h'
    · simp [h']
    · exact List.mem_cons_of_mem _ (ih h')

theorem exists_mem_enumFromN {α : Type} {a : α} :
    ∀ {l : List α} (n : Nat), a ∈ l → ∃ i, (i, a) ∈ enumFromN n l := by
  intro l
  induction l with
  | nil => simp
  | cons b l ih =>
    intro n h
    rcases List.mem_cons.mp h with rfl | h'
    · exact ⟨n, by rw [enumFromN]; exact List.mem_cons_self _ _⟩
    · obtain ⟨i, hi⟩ := ih (n + 1) h'
      exact ⟨i, by rw [enumFromN]; exact List.mem_cons_of_mem _ hi⟩

theorem filterMap_enumFromN_eq_self {α : Type} (g : Nat × α → Option α) :
    ∀ (n : Nat) (l : List α), (∀ p ∈ enumFromN n l, g p = some p.2) →
      (enumFromN n l).filterMap g = l := by
  intro n l
  induction l generalizing n with
  | nil => simp [enumFromN]
  | cons a l ih =>
    intro h
    have ha := h (n, a) (by rw [enumFromN]; exact List.mem_cons_self _ _)
    rw [enumFromN, List.filterMap_cons, ha,
      ih (n + 1) (fun p hp => h p (by rw [enumFromN]; exact List.mem_cons_of_mem _ hp))]

theorem MixTrack.WF.isSimple {t : MixTrack} (h : t.WF) : t.cut.isSimple = true := by
  obtain ⟨_, c, hc, _⟩ := h
  rw [hc]
  rfl

/-- The duration of a flat, non-empty mixed cut is defined and is the
maximum of its track ends. -/
theorem durAny_flat (f : Nat) (m : MixedCut)
    (hflat : ∀ t ∈ m.tracks, t.cut.isSimple = true) (hne : m.tracks ≠ []) :
    ∃ D, durAny (f + 1) (.mixed m) = some D
      ∧ (∀ t ∈ m.tracks, t.trackEnd ≤ D)
      ∧ (∃ t ∈ m.tracks, t.trackEnd = D) := by
  have hpt : ∀ t ∈ m.tracks,
      (durAny f t.cut).map (fun d => t.offset + d) = some t.trackEnd := by
    intro t ht
    have hs := hflat t ht
    cases hcut : t.cut with
    | simple c => simp [durAny, MixTrack.trackEnd, hcut, AnyCut.simpleDuration]
    | mixed mm => rw [hcut] at hs; simp [AnyCut.isSimple] at hs
  have hseq := seqOption_map_some m.tracks _ _ hpt
  cases htr : m.tracks with
  | nil => exact absurd htr hne
  | cons t0 rest =>
    rw [htr] at hseq
    refine ⟨(rest.map MixTrack.trackEnd).foldl max t0.trackEnd, ?_, ?_, ?_⟩
    · show (seqOption (m.tracks.map _)).bind _ = _
      rw [htr, hseq]
      simp
    · intro t ht
      rcases List.mem_cons.mp ht with rfl | h
      · exact le_foldl_max _ _
      · exact mem_le_foldl_max (List.mem_map.mpr ⟨t, h, rfl⟩) _
    · rcases foldl_max_attained t0.trackEnd (rest.map MixTrack.trackEnd) with h | h
      · exact ⟨t0, List.mem_cons_self _ _, h.symm⟩
      · obtain ⟨t, ht, he⟩ := List.mem_map.mp h
        exact ⟨t, List.mem_cons_of_mem _ ht, he⟩

/-- Characterization of `MixedCut.truncate` at `offset=0` with an explicit
requested duration, on a well-formed flat mixed cut: it succeeds, draws a
fresh id, and keeps exactly the `keptZero` tracks of the offset-sorted track
list. -/
theorem truncAny_flat_zero (f : Nat) (m : MixedCut) (gen : Nat → String)
    (d : ℚ) (keep pid : Bool) (hwf : ∀ t ∈ m.tracks, t.WF)
    (hne : m.tracks ≠ []) :
    truncAny (f + 1) (.mixed m) gen 0 (some d) keep pid
      = some (.mixed (MixedCut.mk (gen 0)
          ((enumFromN 0 (sortTracks m.tracks)).filterMap (keptZero gen d keep pid)))) := by
  obtain ⟨D, hD, -, -⟩ :=
    durAny_flat f m (fun t ht => (hwf t ht).isSimple) hne
  have hpt : ∀ p ∈ enumFromN 0 (sortTracks m.tracks),
      ((durAny f p.2.cut).bind (fun track_cut_duration =>
        if p.2.offset + track_cut_duration < 0 then some none
        else if track_cut_duration - max (0 - p.2.offset) 0 -
            cut_duration_decrease (some d) (p.2.offset + track_cut_duration)
              (new_mix_end_def (some d) D 0) D ≤ 0 then
          some none
        else
          (truncAny f p.2.cut (fun n => gen (Nat.pair (p.1 + 1) n))
              (max (0 - p.2.offset) 0)
              (some (track_cut_duration - max (0 - p.2.offset) 0 -
                cut_duration_decrease (some d) (p.2.offset + track_cut_duration)
                  (new_mix_end_def (some d) D 0) D))
              keep pid).map
            (fun newCut =>
              some (MixTrack.mk newCut (max (p.2.offset - 0) 0) p.2.snr))))
        = some (keptZero gen d keep pid p) := by
    intro p hp
    obtain ⟨hoff, c, hc, hcd⟩ :=
      hwf p.2 (mem_sortTracks.mp (mem_enumFromN hp))
    rw [hc]
    have h1 : durAny f (AnyCut.simple c) = some c.duration := by
      cases f <;> rfl
    rw [h1, Option.some_bind]
    have hco : max (0 - p.2.offset) 0 = 0 := max_eq_right (by linarith)
    have hto : max (p.2.offset - 0) 0 = p.2.offset := by
      rw [sub_zero]
      exact max_eq_left hoff
    have hte : ¬ (p.2.offset + c.duration < 0) := by linarith
    rw [hco, hto, if_neg hte]
    have hnme : new_mix_end_def (some d) D 0 = 0 + d := rfl
    have hnd : c.duration - 0 - cut_duration_decrease (some d)
        (p.2.offset + c.duration) (0 + d) D
        = min (p.2.offset + c.duration) d - p.2.offset := by
      unfold cut_duration_decrease
      by_cases hgt : p.2.offset + c.duration > 0 + d
      · rw [if_pos hgt, min_eq_right (by linarith)]
        ring
      · rw [if_neg hgt, min_eq_left (by linarith)]
        ring
    rw [hnme, hnd]
    unfold keptZero
    rw [hc]
    by_cases hle : min (p.2.offset + c.duration) d - p.2.offset ≤ 0
    · rw [if_pos hle]
      simp only [hle, if_true]
    · rw [if_neg hle]
      have hpos : 0 < min (p.2.offset + c.duration) d - p.2.offset := by linarith
      have hbound : c.start + 0 + (min (p.2.offset + c.duration) d - p.2.offset)
          ≤ c.start + c.duration + 1 / 100000 := by
        have hmle : min (p.2.offset + c.duration) d ≤ p.2.offset + c.duration :=
          min_le_left _ _
        linarith
      have htr : truncAny f (AnyCut.simple c) (fun n => gen (Nat.pair (p.1 + 1) n))
          0 (some (min (p.2.offset + c.duration) d - p.2.offset)) keep pid
          = some (.simple (truncCutVal c (gen (Nat.pair (p.1 + 1) 0)) (c.start + 0)
              (min (p.2.offset + c.duration) d - p.2.offset) keep pid)) := by
        have hq : truncAny f (AnyCut.simple c) (fun n => gen (Nat.pair (p.1 + 1) n))
            0 (some (min (p.2.offset + c.duration) d - p.2.offset)) keep pid
            = (Cut.truncate c (gen (Nat.pair (p.1 + 1) 0)) 0
                (some (min (p.2.offset + c.duration) d - p.2.offset)) keep pid).map
                AnyCut.simple := by
          cases f <;> rfl
        rw [hq, Cut.truncate_pos_some c _ 0 _ keep pid hpos hbound]
        rfl
      rw [htr, show c.start + 0 = c.start from add_zero c.start]
      simp only [hle, if_false, Option.map_some']
  have hseq := seqOption_map_some _ _ _ hpt
  show (durAny (f + 1) (.mixed m)).bind _ = _
  rw [hD, Option.some_bind, hseq, Option.some_bind, List.filterMap_map]
  rfl

/-- C1.  `Cut.truncate` with the duration argument omitted computes
`new_duration = self.duration - new_start` (src/lhotse/cut.py line 128),
subtracting the absolute `new_start = start + offset` instead of the
relative `offset`: for the cut with `start=2, duration=5` truncated at
`offset=1`, both validation asserts pass, the new start is `3 = 2 + 1` as
the claim states, but the resulting duration is `2 = 5 - (2 + 1)`, not the
claimed `duration - offset = 4`. -/
theorem C1_truncate_new_duration_bug :
    (Cut.truncate cutS2 fidF 1 none true false).map Cut.start = some (2 + 1)
    ∧ (Cut.truncate cutS2 fidF 1 none true false).map Cut.duration = some 2
    ∧ (2 : ℚ) ≠ cutS2.duration - 1 := by
  refine ⟨?_, ?_, by norm_num [cutS2]⟩ <;> norm_num [Cut.truncate, cutS2]

/-- C2.  In `MixedCut.truncate` with the duration argument omitted, the tail
trim is `track_end - old_duration` (src/lhotse/cut.py line 322), not the
claimed `track_end - new_mix_end`: truncating the C2 mix (tracks ending at
10 and 8, `old_duration = 10`) at `offset=4` gives `new_mix_end = 6`; for
the second track (`track_end = 8 > 6`) the code computes a decrease of
`8 - 10 = -2` where the claim requires `8 - 6 = 2`, the track's requested
new duration becomes `6 - 2 - (-2) = 6` (longer than its remaining 4 s of
content), and the inner `Cut.truncate` assert
`new_start + new_duration <= start + duration + 1e-5` then fails, so the
whole call raises. -/
theorem C2_cut_duration_decrease_bug :
    cut_duration_decrease none 8 6 10 = -2
    ∧ (8 : ℚ) > 6
    ∧ (-2 : ℚ) ≠ 8 - 6
    ∧ truncAny 1 (.mixed mixC2) genU 4 none true false = none := by
  refine ⟨by norm_num [cut_duration_decrease], by norm_num, by norm_num, ?_⟩
  norm_num [truncAny, mixC2, cutT10, cutT6, durAny, seqOption, sortTracks,
    insertTrack, enumFromN, cut_duration_decrease, new_mix_end_def, Cut.truncate,
    MixTrack.offset, MixTrack.cut, MixTrack.snr, MixedCut.tracks]

/-- C3 counterexample.  The C3 mix has duration 6, and `d = 3` satisfies
`0 ≤ d ≤ duration`, but `truncate(duration=3)` drops the 1 s track at
offset 5 entirely (its clipped duration is negative) and keeps only the 2 s
track, so the result's duration is 2, not 3. -/
theorem C3_counterexample :
    durAny 1 (.mixed mixC3) = some 6
    ∧ (0 : ℚ) ≤ 3 ∧ (3 : ℚ) ≤ 6
    ∧ ((truncAny 1 (.mixed mixC3) genU 0 (some 3) true false).bind (durAny 2))
        = some 2
    ∧ (2 : ℚ) ≠ 3 := by
  refine ⟨?_, by norm_num, by norm_num, ?_, by norm_num⟩
  · norm_num [durAny, mixC3, cutP, cutQ, seqOption, MixTrack.offset, MixTrack.cut,
      MixedCut.tracks]
  · norm_num [truncAny, mixC3, cutP, cutQ, durAny, seqOption, sortTracks,
      insertTrack, enumFromN, cut_duration_decrease, new_mix_end_def, Cut.truncate,
      MixTrack.offset, MixTrack.cut, MixTrack.snr, MixedCut.tracks]

/-- C4 counterexample.  `MixedCut.truncate` builds its result with
`MixedCut(id=str(uuid4()), ...)` (src/lhotse/cut.py line 342) and ignores
`preserve_id` for the mix's own id: the identity truncation
`truncate(offset=0, duration=self.duration, preserve_id=True)` of the C4
mix returns the freshly drawn id, not the mix's id, so the result is not
equal to the original in the `id` field. -/
theorem C4_counterexample :
    (truncAny 1 (.mixed mixC4) genG 0 (some 2) true true).map AnyCut.idOf
      = some gidFresh
    ∧ gidFresh ≠ mixC4.id := by
  constructor
  · norm_num [truncAny, mixC4, cutP, durAny, seqOption, sortTracks, insertTrack,
      enumFromN, cut_duration_decrease, new_mix_end_def, Cut.truncate, genG,
      MixTrack.offset, MixTrack.cut, MixTrack.snr, MixedCut.tracks, AnyCut.idOf,
      MixedCut.id]
  · simp [gidFresh, mixC4, MixedCut.id]

/-- C5 counterexample.  Truncating the C5 mix (tracks at offsets 0 and 5)
at `offset=3, duration=7` drops the first track (it ends at 2, before the
truncation offset) and keeps the second at the new offset `5 - 3 = 2`, so
the resulting `MixedCut` has `tracks[0].offset = 2 ≠ 0`:
`MixedCut.truncate` does not preserve the first-track-anchors-origin
invariant. -/
theorem C5_counterexample :
    ((truncAny 1 (.mixed mixC5) genU 3 (some 7) true false).map (fun r =>
      match r with
      | .mixed mm => mm.tracks.map MixTrack.offset
      | .simple _ => []))
      = some [2]
    ∧ (2 : ℚ) ≠ 0 := by
  constructor
  · norm_num [truncAny, mixC5, cutP, cutR, durAny, seqOption, sortTracks,
      insertTrack, enumFromN, cut_duration_decrease, new_mix_end_def, Cut.truncate,
      MixTrack.offset, MixTrack.cut, MixTrack.snr, MixedCut.tracks,
      List.filterMap_cons, List.filterMap_nil]
  · norm_num

/-- C6 counterexample.  When the `other` cut is a `MixedCut`, `overlay`
splices its tracks with their own offsets and ignores `offset_other_by`
(src/lhotse/cut.py lines 153-157): overlaying the 5 s simple cut with the
5 s C6 mix at offset 2.5 yields duration `max(5, 0+5) = 5`, not the claimed
`max(5, 2.5+5) = 7.5`. -/
theorem C6_counterexample :
    durAny 1 (.mixed mixB6) = some 5
    ∧ ((Cut.overlay 1 cutR (.mixed mixB6) (5 / 2) none fidF).bind
        (fun mc => durAny 1 (.mixed mc))) = some 5
    ∧ (5 : ℚ) ≠ max cutR.duration (5 / 2 + 5) := by
  refine ⟨?_, ?_, by norm_num [cutR]⟩
  · norm_num [durAny, mixB6, cutR, seqOption, MixTrack.offset, MixTrack.cut,
      MixedCut.tracks]
  · norm_num [Cut.overlay, numFeatAny, cutR, mixB6, featA, Cut.num_features,
      durAny, seqOption, MixTrack.offset, MixTrack.cut, MixedCut.tracks]

/-- C10.  Truncating the single-track C10 mix (duration 2) at `offset=5`
skips every track (`track_end < offset`), returning a `MixedCut` with an
empty track list; on that value the derived `duration` (`max` of an empty
sequence), `num_features` (`tracks[0]` IndexError) and `num_frames` are all
undefined, so `MixedCut.truncate` does not preserve the non-empty-tracks
requirement. -/
theorem C10_truncate_empty_tracks :
    truncAny 1 (.mixed mixC10) genU 5 none true false
      = some (.mixed (MixedCut.mk (genU 0) []))
    ∧ MixedCut.durationF 1 (MixedCut.mk (genU 0) []) = none
    ∧ MixedCut.num_featuresF 1 (MixedCut.mk (genU 0) []) = none
    ∧ MixedCut.num_framesF 1 (MixedCut.mk (genU 0) []) = none := by
  refine ⟨?_, by rfl, by rfl, by rfl⟩
  norm_num [truncAny, mixC10, cutP, durAny, seqOption, sortTracks, insertTrack,
    enumFromN, cut_duration_decrease, new_mix_end_def, Cut.truncate,
    MixTrack.offset, MixTrack.cut, MixTrack.snr, MixedCut.tracks]

/-- C5 amended.  The invariant `tracks[0].offset == 0` is established by
`Cut.overlay` and `Cut.append` (the receiver becomes track 0 with the
default offset 0) and preserved by `MixedCut.overlay` and `MixedCut.append`
(new tracks are appended after the existing ones); `MixedCut.truncate` can
violate it (see the C5 counterexample). -/
theorem C5_first_track_offset_amended :
    (∀ (fuel : Nat) (c : Cut) (other : AnyCut) (off : Seconds)
        (snr : Option Decibels) (fid : String) (mc : MixedCut),
        Cut.overlay fuel c other off snr fid = some mc →
        mc.tracks.head?.map MixTrack.offset = some 0)
    ∧ (∀ (fuel : Nat) (c : Cut) (other : AnyCut) (snr : Option Decibels)
        (fid : String) (mc : MixedCut),
        Cut.append fuel c other snr fid = some mc →
        mc.tracks.head?.map MixTrack.offset = some 0)
    ∧ (∀ (fuel : Nat) (m : MixedCut) (other : AnyCut) (off : Seconds)
        (snr : Option Decibels) (fid : String) (mc : MixedCut),
        m.tracks.head?.map MixTrack.offset = some 0 →
        MixedCut.overlay fuel m other off snr fid = some mc →
        mc.tracks.head?.map MixTrack.offset = some 0)
    ∧ (∀ (fuel : Nat) (m : MixedCut) (other : AnyCut) (snr : Option Decibels)
        (fid : String) (mc : MixedCut),
        m.tracks.head?.map MixTrack.offset = some 0 →
        MixedCut.append fuel m other snr fid = some mc →
        mc.tracks.head?.map MixTrack.offset = some 0) := by
  have hco : ∀ (fuel : Nat) (c : Cut) (other : AnyCut) (off : Seconds)
      (snr : Option Decibels) (fid : String) (mc : MixedCut),
      Cut.overlay fuel c other off snr fid = some mc →
      mc.tracks.head?.map MixTrack.offset = some 0 := by
    intro fuel c other off snr fid mc h
    simp only [Cut.overlay, Option.bind_eq_some] at h
    obtain ⟨nf, -, h⟩ := h
    split_ifs at h
    injection h with h
    subst h
    rfl
  have hmo : ∀ (fuel : Nat) (m : MixedCut) (other : AnyCut) (off : Seconds)
      (snr : Option Decibels) (fid : String) (mc : MixedCut),
      m.tracks.head?.map MixTrack.offset = some 0 →
      MixedCut.overlay fuel m other off snr fid = some mc →
      mc.tracks.head?.map MixTrack.offset = some 0 := by
    intro fuel m other off snr fid mc hm h
    simp only [MixedCut.overlay, Option.bind_eq_some] at h
    obtain ⟨snf, -, onf, -, h⟩ := h
    split_ifs at h
    obtain ⟨sdur, -, h⟩ := Option.bind_eq_some.mp h
    split_ifs at h
    injection h with h
    subst h
    cases htr : m.tracks with
    | nil => rw [htr] at hm; simp at hm
    | cons t0 ts =>
      rw [htr] at hm
      simp only [List.head?_cons, Option.map_some'] at hm
      simp [htr, List.head?_cons, hm]
  refine ⟨hco, ?_, hmo, ?_⟩
  · intro fuel c other snr fid mc h
    exact hco fuel c other c.duration snr fid mc h
  · intro fuel m other snr fid mc hm h
    simp only [MixedCut.append, Option.bind_eq_some] at h
    obtain ⟨sdur, -, h⟩ := h
    exact hmo fuel m other sdur snr fid mc hm h

/-- C8.  `overlay` fails exactly when the feature dimensions differ or the
offset exceeds the receiver's duration (the two asserts of
src/lhotse/cut.py lines 150-152 and 249-251), given that the receiver's and
argument's derived `num_features` and the receiver's derived `duration` are
themselves defined (which the data-model invariants — non-empty flat track
lists — guarantee); otherwise it returns a `MixedCut`. -/
theorem C8_overlay_failure_iff (self other : AnyCut) (off : Seconds)
    (snr : Option Decibels) (fid : String) (ns no : Nat) (ds : ℚ)
    (h1 : numFeatAny 2 self = some ns) (h2 : numFeatAny 1 other = some no)
    (h3 : durAny 2 self = some ds) :
    (AnyCut.overlay 1 self other off snr fid = none) ↔ (ns ≠ no ∨ ds < off) := by
  have key : ∀ (nsx nox : Nat) (dsx : ℚ) (V : MixedCut),
      ((if nsx ≠ nox then none else if ¬ (off ≤ dsx) then none
        else some V) = (none : Option MixedCut)) ↔ (nsx ≠ nox ∨ dsx < off) := by
    intro nsx nox dsx V
    by_cases hA : nsx = nox <;> by_cases hB : off ≤ dsx
    · rw [if_neg (by simp [hA]), if_neg (by simpa using hB)]
      simp [hA, not_lt.mpr hB]
    · rw [if_neg (by simp [hA]), if_pos (by simpa using hB)]
      simp [hA, not_le.mp hB]
    · rw [if_pos hA]
      simp [hA]
    · rw [if_pos hA]
      simp [hA]
  cases self with
  | simple c =>
    have hns : ns = c.num_features := by
      have hr : numFeatAny 2 (AnyCut.simple c) = some c.num_features := rfl
      rw [hr] at h1
      exact (Option.some.inj h1).symm
    have hds : ds = c.duration := by
      have hr : durAny 2 (AnyCut.simple c) = some c.duration := rfl
      rw [hr] at h3
      exact (Option.some.inj h3).symm
    subst hns hds
    simp only [AnyCut.overlay, Cut.overlay, h2, Option.some_bind]
    exact key _ _ _ _
  | mixed m =>
    simp only [AnyCut.overlay, MixedCut.overlay, MixedCut.num_featuresF,
      MixedCut.durationF, h1, h2, h3, Option.some_bind]
    exact key _ _ _ _

/-- C9.  When the `other` argument of `overlay` is a `MixedCut`, its tracks
are spliced into the result unchanged and neither `offset_other_by` nor
`snr` influences the resulting track list: any two successful calls that
differ only in those arguments return the same mix (the same fresh id being
drawn), whose tracks are the receiver's track (or tracks) followed by
`other.tracks`. -/
theorem C9_mixed_other_independent (self : AnyCut) (om : MixedCut)
    (o1 o2 : Seconds) (s1 s2 : Option Decibels) (fid : String) (r1 r2 : MixedCut)
    (h1 : AnyCut.overlay 1 self (.mixed om) o1 s1 fid = some r1)
    (h2 : AnyCut.overlay 1 self (.mixed om) o2 s2 fid = some r2) :
    r1 = r2 ∧ r1.tracks = (match self with
      | .simple c => MixTrack.mk (.simple c) 0 none :: om.tracks
      | .mixed m => m.tracks ++ om.tracks) := by
  cases self with
  | simple c =>
    simp only [AnyCut.overlay, Cut.overlay, Option.bind_eq_some] at h1 h2
    obtain ⟨nf1, -, h1⟩ := h1
    obtain ⟨nf2, -, h2⟩ := h2
    split_ifs at h1
    split_ifs at h2
    injection h1 with h1
    injection h2 with h2
    subst h1
    subst h2
    exact ⟨rfl, rfl⟩
  | mixed m =>
    simp only [AnyCut.overlay, MixedCut.overlay, Option.bind_eq_some] at h1 h2
    obtain ⟨snf1, -, onf1, -, h1⟩ := h1
    obtain ⟨snf2, -, onf2, -, h2⟩ := h2
    split_ifs at h1
    split_ifs at h2
    obtain ⟨sd1, -, h1⟩ := Option.bind_eq_some.mp h1
    obtain ⟨sd2, -, h2⟩ := Option.bind_eq_some.mp h2
    split_ifs at h1
    split_ifs at h2
    injection h1 with h1
    injection h2 with h2
    subst h1
    subst h2
    exact ⟨rfl, rfl⟩

/-- C6 amended.  When the `other` cut is a SimpleCut, a successful
`a.overlay(b, offset_other_by=offset)` has
`duration = max(a.duration, offset + b.duration)` (for `a` simple or
mixed); when `other` is a MixedCut its tracks keep their own offsets and
`offset_other_by` does not enter the duration (see the C6 counterexample). -/
theorem C6_overlay_duration_amended (a : AnyCut) (b : Cut) (off : Seconds)
    (snr : Option Decibels) (fid : String) (da : ℚ) (mc : MixedCut)
    (hda : durAny 1 a = some da)
    (h : AnyCut.overlay 1 a (.simple b) off snr fid = some mc) :
    durAny 1 (.mixed mc) = some (max da (off + b.duration)) := by
  cases a with
  | simple c =>
    have hdc : da = c.duration := by
      have hr : durAny 1 (AnyCut.simple c) = some c.duration := rfl
      rw [hr] at hda
      exact (Option.some.inj hda).symm
    simp only [AnyCut.overlay, Cut.overlay, Option.bind_eq_some] at h
    obtain ⟨nf, -, h⟩ := h
    split_ifs at h
    injection h with h
    subst h
    subst hdc
    show (seqOption _).bind _ = _
    have h1 : durAny 0 (AnyCut.simple c) = some c.duration := rfl
    have h2 : durAny 0 (AnyCut.simple b) = some b.duration := rfl
    simp [seqOption, h1, h2, MixTrack.cut, MixTrack.offset, MixedCut.tracks]
  | mixed m =>
    simp only [AnyCut.overlay, MixedCut.overlay, Option.bind_eq_some] at h
    obtain ⟨snf, -, onf, -, h⟩ := h
    split_ifs at h
    obtain ⟨sdur, -, h⟩ := Option.bind_eq_some.mp h
    split_ifs at h
    injection h with h
    subst h
    have hum : durAny 1 (AnyCut.mixed m)
        = (seqOption (m.tracks.map (fun t =>
            (durAny 0 t.cut).map (fun dd => t.offset + dd)))).bind
          (fun track_durations => match track_durations with
            | [] => none
            | e :: es => some (es.foldl max e)) := rfl
    rw [hum] at hda
    obtain ⟨ends, hends, hmatch⟩ := Option.bind_eq_some.mp hda
    cases ends with
    | nil => simp at hmatch
    | cons e es =>
      have hda' : da = es.foldl max e := (Option.some.inj hmatch).symm
      show (seqOption _).bind _ = _
      rw [MixedCut.tracks_mk, List.map_append, seqOption_append, hends,
        Option.some_bind]
      have hnt : seqOption ([MixTrack.mk (.simple b) off snr].map (fun t =>
          (durAny 0 t.cut).map (fun dd => t.offset + dd)))
          = some [off + b.duration] := rfl
      rw [hnt]
      simp only [Option.map_some', Option.some_bind, List.cons_append]
      rw [List.foldl_append]
      simp [hda']
/-- C7.  `mix_cuts([a, b, c])` on three SimpleCuts with equal
`num_features` (and the data model's non-negative durations) yields a
MixedCut with exactly 3 tracks, each holding a SimpleCut — and the same
holds for the other association of the fold,
`a.overlay(b.overlay(c))`: overlay always splices, never nests. -/
theorem C7_mix_cuts_flattening (a b c : Cut) (gen : Nat → String)
    (f1 f2 : String) (hab : a.num_features = b.num_features)
    (hac : a.num_features = c.num_features) (ha : 0 ≤ a.duration)
    (hb : 0 ≤ b.duration) :
    (∃ m : MixedCut,
        mix_cuts 1 gen [.simple a, .simple b, .simple c] = some (.mixed m)
        ∧ m.tracks.length = 3 ∧ ∀ t ∈ m.tracks, t.cut.isSimple = true)
    ∧ (∃ mbc mr : MixedCut,
        Cut.overlay 1 b (.simple c) 0 none f1 = some mbc
        ∧ Cut.overlay 1 a (.mixed mbc) 0 none f2 = some mr
        ∧ mr.tracks.length = 3 ∧ ∀ t ∈ mr.tracks, t.cut.isSimple = true) := by
  have hbc : b.num_features = c.num_features := hab ▸ hac
  constructor
  · have h1 : Cut.overlay 1 a (.simple b) 0 none (gen 0)
        = some (MixedCut.mk (gen 0)
            [MixTrack.mk (.simple a) 0 none, MixTrack.mk (.simple b) 0 none]) := by
      have hnf : numFeatAny 1 (AnyCut.simple b) = some b.num_features := rfl
      rw [Cut.overlay, hnf, Option.some_bind, if_neg (by simp [hab]),
        if_neg (by simpa using ha)]
    have hd2 : MixedCut.durationF 1 (MixedCut.mk (gen 0)
        [MixTrack.mk (.simple a) 0 none, MixTrack.mk (.simple b) 0 none])
        = some (max (0 + a.duration) (0 + b.duration)) := rfl
    have h2 : MixedCut.overlay 1 (MixedCut.mk (gen 0)
        [MixTrack.mk (.simple a) 0 none, MixTrack.mk (.simple b) 0 none])
        (.simple c) 0 none (gen 1)
        = some (MixedCut.mk (gen 1)
            [MixTrack.mk (.simple a) 0 none, MixTrack.mk (.simple b) 0 none,
             MixTrack.mk (.simple c) 0 none]) := by
      have hnfs : MixedCut.num_featuresF 1 (MixedCut.mk (gen 0)
          [MixTrack.mk (.simple a) 0 none, MixTrack.mk (.simple b) 0 none])
          = some a.num_features := rfl
      have hnfo : numFeatAny 1 (AnyCut.simple c) = some c.num_features := rfl
      have hdle : (0 : ℚ) ≤ max (0 + a.duration) (0 + b.duration) :=
        le_max_iff.mpr (Or.inl (by linarith))
      rw [MixedCut.overlay, hnfs, Option.some_bind, hnfo, Option.some_bind,
        if_neg (by simp [hac]), hd2, Option.some_bind,
        if_neg (by rw [not_not]; exact hdle)]
      rfl
    refine ⟨MixedCut.mk (gen 1)
        [MixTrack.mk (.simple a) 0 none, MixTrack.mk (.simple b) 0 none,
         MixTrack.mk (.simple c) 0 none], ?_, rfl, ?_⟩
    · show (mix 1 (.simple a) (.simple b) 0 none (gen 0)).bind _ = _
      rw [show mix 1 (.simple a) (.simple b) 0 none (gen 0)
          = Cut.overlay 1 a (.simple b) 0 none (gen 0) from rfl, h1,
        Option.some_bind]
      show (mix 1 _ (.simple c) 0 none (gen 1)).bind _ = _
      rw [show mix 1 (.mixed (MixedCut.mk (gen 0)
          [MixTrack.mk (.simple a) 0 none, MixTrack.mk (.simple b) 0 none]))
          (.simple c) 0 none (gen 1)
          = MixedCut.overlay 1 (MixedCut.mk (gen 0)
              [MixTrack.mk (.simple a) 0 none, MixTrack.mk (.simple b) 0 none])
              (.simple c) 0 none (gen 1) from rfl, h2]
      rfl
    · intro t ht
      simp only [MixedCut.tracks_mk, List.mem_cons, List.not_mem_nil, or_false] at ht
      rcases ht with rfl | rfl | rfl <;> rfl
  · have h1 : Cut.overlay 1 b (.simple c) 0 none f1
        = some (MixedCut.mk f1
            [MixTrack.mk (.simple b) 0 none, MixTrack.mk (.simple c) 0 none]) := by
      have hnf : numFeatAny 1 (AnyCut.simple c) = some c.num_features := rfl
      rw [Cut.overlay, hnf, Option.some_bind, if_neg (by simp [hbc]),
        if_neg (by simpa using hb)]
    have h2 : Cut.overlay 1 a (.mixed (MixedCut.mk f1
        [MixTrack.mk (.simple b) 0 none, MixTrack.mk (.simple c) 0 none]))
        0 none f2
        = some (MixedCut.mk f2
            [MixTrack.mk (.simple a) 0 none, MixTrack.mk (.simple b) 0 none,
             MixTrack.mk (.simple c) 0 none]) := by
      have hnf : numFeatAny 1 (AnyCut.mixed (MixedCut.mk f1
          [MixTrack.mk (.simple b) 0 none, MixTrack.mk (.simple c) 0 none]))
          = some b.num_features := rfl
      rw [Cut.overlay, hnf, Option.some_bind, if_neg (by simp [hab]),
        if_neg (by simpa using ha)]
      rfl
    refine ⟨_, _, h1, h2, rfl, ?_⟩
    intro t ht
    simp only [MixedCut.tracks_mk, List.mem_cons, List.not_mem_nil, or_false] at ht
    rcases ht with rfl | rfl | rfl <;> rfl

theorem trackEnd_simple {t : MixTrack} {c : Cut} (h : t.cut = AnyCut.simple c) :
    t.trackEnd = t.offset + c.duration := by
  rw [MixTrack.trackEnd, h]
  rfl

theorem trackEnd_mk_simple (c : Cut) (o : Seconds) (s : Option Decibels) :
    (MixTrack.mk (AnyCut.simple c) o s).trackEnd = o + c.duration := rfl

theorem MixTrack.eta {t : MixTrack} {x : AnyCut} (h : t.cut = x) :
    MixTrack.mk x t.offset t.snr = t := by
  cases t with
  | mk c o s =>
    rw [MixTrack.cut_mk] at h
    subst h
    rfl

theorem keptZero_eq_some {gen : Nat → String} {d : ℚ} {keep pid : Bool}
    {p : Nat × MixTrack} {t : MixTrack}
    (h : keptZero gen d keep pid p = some t) :
    ∃ c : Cut, p.2.cut = AnyCut.simple c
      ∧ 0 < min (p.2.offset + c.duration) d - p.2.offset
      ∧ t = MixTrack.mk
          (.simple (truncCutVal c (gen (Nat.pair (p.1 + 1) 0)) c.start
            (min (p.2.offset + c.duration) d - p.2.offset) keep pid))
          p.2.offset p.2.snr := by
  cases hc : p.2.cut with
  | mixed mm =>
    simp only [keptZero, hc] at h
    exact Option.noConfusion h
  | simple c =>
    simp only [keptZero, hc] at h
    by_cases hle : min (p.2.offset + c.duration) d - p.2.offset ≤ 0
    · rw [if_pos hle] at h
      exact Option.noConfusion h
    · rw [if_neg hle] at h
      exact ⟨c, rfl, by linarith [not_le.mp hle], (Option.some.inj h).symm⟩

theorem truncCutVal_self (c : Cut) (gid : String)
    (hsup : ∀ s ∈ c.supervisions,
      overlaps ⟨c.start, c.start + c.duration⟩ s.toTimeSpan = true) :
    truncCutVal c gid c.start c.duration true true = c := by
  unfold truncCutVal
  simp only [if_true]
  rw [List.filter_eq_self.mpr hsup]

/-- C3 amended.  `truncate(duration=d)` yields a cut of duration exactly `d`
for a SimpleCut whenever `0 < d ≤ duration` (at `d = 0` the
`new_duration > 0` assert fires), and for a well-formed flat MixedCut
whenever some track covers the instant `d`
(`track.offset < d ≤ track.offset + track.cut.duration`); when no track
covers `d` — a gap mix — the resulting duration falls short of `d` (see the
C3 counterexample). -/
theorem C3_truncate_duration_amended :
    (∀ (c : Cut) (fid : String) (keep pid : Bool) (d : ℚ),
        0 < d → d ≤ c.duration →
        (Cut.truncate c fid 0 (some d) keep pid).map Cut.duration = some d)
    ∧ (∀ (m : MixedCut) (gen : Nat → String) (keep pid : Bool) (d : ℚ),
        (∀ t ∈ m.tracks, t.WF) →
        (∃ t ∈ m.tracks, t.offset < d ∧ d ≤ t.trackEnd) →
        ((truncAny 1 (.mixed m) gen 0 (some d) keep pid).bind (durAny 2))
          = some d) := by
  constructor
  · intro c fid keep pid d h0 hd
    rw [Cut.truncate_pos_some c fid 0 d keep pid h0 (by linarith)]
    rfl
  · intro m gen keep pid d hwf hex
    obtain ⟨t0, ht0, hlt, hge⟩ := hex
    have hne : m.tracks ≠ [] := List.ne_nil_of_mem ht0
    have hchar : truncAny 1 (.mixed m) gen 0 (some d) keep pid
        = some (.mixed (MixedCut.mk (gen 0)
            ((enumFromN 0 (sortTracks m.tracks)).filterMap
              (keptZero gen d keep pid)))) :=
      truncAny_flat_zero 0 m gen d keep pid hwf hne
    rw [hchar, Option.some_bind]
    obtain ⟨hoff0, c0, hc0, hcd0⟩ := hwf t0 ht0
    obtain ⟨i, hi⟩ := exists_mem_enumFromN 0 (mem_sortTracks.mpr ht0)
    have hte0 : t0.trackEnd = t0.offset + c0.duration := trackEnd_simple hc0
    have hmin0 : min (t0.offset + c0.duration) d = d :=
      min_eq_right (by rw [hte0] at hge; linarith)
    have hk0 : keptZero gen d keep pid (i, t0) = some (MixTrack.mk
        (.simple (truncCutVal c0 (gen (Nat.pair (i + 1) 0)) c0.start
          (min (t0.offset + c0.duration) d - t0.offset) keep pid))
        t0.offset t0.snr) := by
      simp only [keptZero, hc0]
      rw [if_neg (by rw [hmin0]; exact not_le.mpr (by linarith))]
    have hkmem : (MixTrack.mk
        (.simple (truncCutVal c0 (gen (Nat.pair (i + 1) 0)) c0.start
          (min (t0.offset + c0.duration) d - t0.offset) keep pid))
        t0.offset t0.snr)
        ∈ (enumFromN 0 (sortTracks m.tracks)).filterMap (keptZero gen d keep pid) :=
      List.mem_filterMap.mpr ⟨(i, t0), hi, hk0⟩
    have hkflat : ∀ t ∈ (enumFromN 0 (sortTracks m.tracks)).filterMap
        (keptZero gen d keep pid), t.cut.isSimple = true := by
      intro t ht
      obtain ⟨p, hp, hk⟩ := List.mem_filterMap.mp ht
      obtain ⟨c, hc, hpos, rfl⟩ := keptZero_eq_some hk
      rfl
    have hkne : (enumFromN 0 (sortTracks m.tracks)).filterMap
        (keptZero gen d keep pid) ≠ [] := List.ne_nil_of_mem hkmem
    obtain ⟨D, hD, hub, hat⟩ := durAny_flat 1 (MixedCut.mk (gen 0)
      ((enumFromN 0 (sortTracks m.tracks)).filterMap (keptZero gen d keep pid)))
      hkflat hkne
    have hD2 : durAny 2 (AnyCut.mixed (MixedCut.mk (gen 0)
        ((enumFromN 0 (sortTracks m.tracks)).filterMap (keptZero gen d keep pid))))
        = some D := hD
    rw [hD2]
    have hdD : d ≤ D := by
      have hw := hub _ hkmem
      rw [trackEnd_mk_simple, truncCutVal_duration, hmin0] at hw
      linarith
    have hDd : D ≤ d := by
      obtain ⟨tk, htk, hek⟩ := hat
      obtain ⟨p, hp, hk⟩ := List.mem_filterMap.mp htk
      obtain ⟨c, hc, hpos, rfl⟩ := keptZero_eq_some hk
      rw [trackEnd_mk_simple, truncCutVal_duration] at hek
      have hmle : min (p.2.offset + c.duration) d ≤ d := min_le_right _ _
      linarith
    rw [le_antisymm hDd hdD]

/-- C4 amended.  The identity truncation
`truncate(offset=0, duration=duration, preserve_id=True)` returns a
SimpleCut equal to the original in every field whenever each supervision
overlaps the cut's span (a supervision outside the span would be filtered
out); for a well-formed flat MixedCut with offset-sorted tracks and the
same supervision condition it returns a mix with exactly the original
track list — same cuts, offsets and SNRs — but with a freshly drawn id:
`MixedCut.truncate` never preserves the mix's own id, so equality in the
`id` field fails (see the C4 counterexample). -/
theorem C4_truncate_identity_amended :
    (∀ (c : Cut) (fid : String), 0 < c.duration →
        (∀ s ∈ c.supervisions,
          overlaps ⟨c.start, c.start + c.duration⟩ s.toTimeSpan = true) →
        Cut.truncate c fid 0 (some c.duration) true true = some c)
    ∧ (∀ (m : MixedCut) (gen : Nat → String) (D : ℚ),
        (∀ t ∈ m.tracks, t.WF) →
        (∀ t ∈ m.tracks, ∀ cc : Cut, t.cut = AnyCut.simple cc →
          ∀ s ∈ cc.supervisions,
            overlaps ⟨cc.start, cc.start + cc.duration⟩ s.toTimeSpan = true) →
        m.tracks ≠ [] →
        List.Pairwise (fun t u => t.offset ≤ u.offset) m.tracks →
        durAny 1 (.mixed m) = some D →
        truncAny 1 (.mixed m) gen 0 (some D) true true
          = some (.mixed (MixedCut.mk (gen 0) m.tracks))) := by
  have hsimple : ∀ (c : Cut) (fid : String), 0 < c.duration →
      (∀ s ∈ c.supervisions,
        overlaps ⟨c.start, c.start + c.duration⟩ s.toTimeSpan = true) →
      Cut.truncate c fid 0 (some c.duration) true true = some c := by
    intro c fid hpos hsup
    rw [Cut.truncate_pos_some c fid 0 c.duration true true hpos (by linarith)]
    rw [show c.start + 0 = c.start from add_zero c.start]
    rw [truncCutVal_self c fid hsup]
  refine ⟨hsimple, ?_⟩
  intro m gen D hwf hsup hne hsorted hdur
  have hchar : truncAny 1 (.mixed m) gen 0 (some D) true true
      = some (.mixed (MixedCut.mk (gen 0)
          ((enumFromN 0 (sortTracks m.tracks)).filterMap
            (keptZero gen D true true)))) :=
    truncAny_flat_zero 0 m gen D true true hwf hne
  rw [hchar]
  obtain ⟨D', hD', hub, -⟩ :=
    durAny_flat 0 m (fun t ht => (hwf t ht).isSimple) hne
  have hDD : D' = D := by
    have hD1 : durAny 1 (AnyCut.mixed m) = some D' := hD'
    rw [hD1] at hdur
    exact Option.some.inj hdur
  subst hDD
  rw [sortTracks_of_sorted hsorted]
  rw [filterMap_enumFromN_eq_self _ 0 m.tracks ?hall]
  case hall =>
    intro p hp
    have hpmem : p.2 ∈ m.tracks := mem_enumFromN hp
    obtain ⟨hoff, c, hc, hcd⟩ := hwf p.2 hpmem
    have hte : p.2.trackEnd = p.2.offset + c.duration := trackEnd_simple hc
    have hle : p.2.offset + c.duration ≤ D' := by
      rw [← hte]
      exact hub p.2 hpmem
    have hmin : min (p.2.offset + c.duration) D' = p.2.offset + c.duration :=
      min_eq_left hle
    simp only [keptZero, hc]
    rw [if_neg (by rw [hmin]; exact not_le.mpr (by linarith))]
    rw [show min (p.2.offset + c.duration) D' - p.2.offset = c.duration from by
      rw [hmin]; ring]
    rw [truncCutVal_self c _ (hsup p.2 hpmem c hc)]
    rw [MixTrack.eta hc]

/-- Witness for C3: the amended theorem applied to the 2 s simple cut with
`d = 1` and to the C3 mix with `d = 2` (covered by the first track). -/
theorem C3_witness :
    ((Cut.truncate cutP fidF 0 (some 1) true false).map Cut.duration = some 1)
    ∧ ((truncAny 1 (.mixed mixC3) genU 0 (some 2) true false).bind (durAny 2)
        = some 2) := by
  constructor
  · exact C3_truncate_duration_amended.1 cutP fidF true false 1 (by norm_num)
      (by norm_num [cutP])
  · refine C3_truncate_duration_amended.2 mixC3 genU true false 2 ?_ ?_
    · intro t ht
      simp only [mixC3, MixedCut.tracks_mk, List.mem_cons, List.not_mem_nil,
        or_false] at ht
      rcases ht with rfl | rfl
      · exact ⟨le_refl 0, cutP, rfl, by norm_num [cutP]⟩
      · exact ⟨by norm_num, cutQ, rfl, by norm_num [cutQ]⟩
    · refine ⟨MixTrack.mk (.simple cutP) 0 none, ?_, by norm_num, ?_⟩
      · simp [mixC3]
      · rw [trackEnd_mk_simple]
        norm_num [cutP]

/-- Witness for C4: the amended theorem applied to the 2 s simple cut and to
the single-track C4 mix. -/
theorem C4_witness :
    (Cut.truncate cutP fidF 0 (some cutP.duration) true true = some cutP)
    ∧ (truncAny 1 (.mixed mixC4) genG 0 (some 2) true true
        = some (.mixed (MixedCut.mk (genG 0) mixC4.tracks))) := by
  constructor
  · exact C4_truncate_identity_amended.1 cutP fidF (by norm_num [cutP])
      (by simp [cutP])
  · refine C4_truncate_identity_amended.2 mixC4 genG 2 ?_ ?_ ?_ ?_ ?_
    · intro t ht
      simp only [mixC4, MixedCut.tracks_mk, List.mem_cons, List.not_mem_nil,
        or_false] at ht
      subst ht
      exact ⟨le_refl 0, cutP, rfl, by norm_num [cutP]⟩
    · intro t ht cc hcc s hs
      simp only [mixC4, MixedCut.tracks_mk, List.mem_cons, List.not_mem_nil,
        or_false] at ht
      subst ht
      rw [MixTrack.cut_mk] at hcc
      injection hcc with hcc
      subst hcc
      simp [cutP] at hs
    · simp [mixC4]
    · simp [mixC4]
    · norm_num [durAny, mixC4, cutP, seqOption, MixTrack.offset, MixTrack.cut,
        MixedCut.tracks]

/-- Witness for C5: the amended theorem's first conjunct applied to a
concrete `Cut.overlay`. -/
theorem C5_witness :
    (MixedCut.mk fidF [MixTrack.mk (.simple cutP) 0 none,
      MixTrack.mk (.simple cutQ) 0 none]).tracks.head?.map MixTrack.offset
      = some 0 :=
  C5_first_track_offset_amended.1 1 cutP (.simple cutQ) 0 none fidF _
    (by norm_num [Cut.overlay, numFeatAny, cutP, cutQ, featA, Cut.num_features])

/-- Witness for C6: the amended theorem applied to two concrete simple cuts
overlaid at offset 1. -/
theorem C6_witness :
    durAny 1 (.mixed (MixedCut.mk fidF [MixTrack.mk (.simple cutP) 0 none,
      MixTrack.mk (.simple cutQ) 1 none])) = some (max 2 (1 + cutQ.duration)) :=
  C6_overlay_duration_amended (.simple cutP) cutQ 1 none fidF 2 _ rfl
    (by norm_num [AnyCut.overlay, Cut.overlay, numFeatAny, cutP, cutQ, featA,
      Cut.num_features])

/-- Witness for C7: the flattening theorem applied to three concrete cuts. -/
theorem C7_witness :
    (∃ m : MixedCut,
        mix_cuts 1 genU [.simple cutP, .simple cutQ, .simple cutR]
          = some (.mixed m)
        ∧ m.tracks.length = 3 ∧ ∀ t ∈ m.tracks, t.cut.isSimple = true)
    ∧ (∃ mbc mr : MixedCut,
        Cut.overlay 1 cutQ (.simple cutR) 0 none fidF = some mbc
        ∧ Cut.overlay 1 cutP (.mixed mbc) 0 none gidFresh = some mr
        ∧ mr.tracks.length = 3 ∧ ∀ t ∈ mr.tracks, t.cut.isSimple = true) :=
  C7_mix_cuts_flattening cutP cutQ cutR genU fidF gidFresh rfl rfl
    (by norm_num [cutP]) (by norm_num [cutQ])

/-- Witness for C8: the failure-iff theorem applied to two concrete simple
cuts with equal feature dimensions and an in-range offset. -/
theorem C8_witness :
    (AnyCut.overlay 1 (.simple cutR) (.simple cutP) 2 none fidF = none)
      ↔ ((1 : Nat) ≠ 1 ∨ (5 : ℚ) < 2) :=
  C8_overlay_failure_iff (.simple cutR) (.simple cutP) 2 none fidF 1 1 5
    rfl rfl rfl

/-- Witness for C9: two concrete overlays of the same mixed `other` with
different offsets and SNRs produce the same result. -/
theorem C9_witness :
    (MixedCut.mk fidF (MixTrack.mk (.simple cutP) 0 none :: mixB6.tracks))
      = (MixedCut.mk fidF (MixTrack.mk (.simple cutP) 0 none :: mixB6.tracks))
    ∧ (MixedCut.mk fidF
        (MixTrack.mk (.simple cutP) 0 none :: mixB6.tracks)).tracks
      = MixTrack.mk (.simple cutP) 0 none :: mixB6.tracks :=
  C9_mixed_other_independent (.simple cutP) mixB6 0 1 none (some 3) fidF _ _
    (by norm_num [AnyCut.overlay, Cut.overlay, numFeatAny, cutP, cutR, mixB6,
      featA, Cut.num_features, MixTrack.cut, MixedCut.tracks])
    (by norm_num [AnyCut.overlay, Cut.overlay, numFeatAny, cutP, cutR, mixB6,
      featA, Cut.num_features, MixTrack.cut, MixedCut.tracks])

end Lhotse
